import Mathlib

/-!
Verification development for the frequency-response sweep-and-capture tool
(`FrequencyResponseCapture.py` and `interactivePlot.py`).

Modelling conventions:
* Instrument readings are exact rationals (`ℚ`).  The Python code works with
  IEEE floats; all properties checked here are about the control flow and the
  exact record-level data flow, none depends on rounding.
* The gain computation `20*math.log10(ampl2/ampl1)` is represented by an
  abstract function `gainFn : ℚ → ℚ → ℚ` applied to the same pair of
  amplitudes the source passes to it; the real logarithm is not needed by any
  claim and is not computable on `ℚ`.
* The instrument (the `capture_waveform` round trip of commands and queries)
  is an oracle `meas : ℚ → Except TransportError MeasurementSample`: for a
  driven frequency it either yields the five measured numbers or fails with a
  transport-level error (modelling `check_instrument_errors` calling
  `sys.exit`).
* The `while` loop of `sweep_frequency` is given explicit fuel; every theorem
  about a complete run supplies enough fuel, so no behaviour is hidden by
  fuel exhaustion.
-/

/-- One instrument reading, as returned by `capture_waveform`:
channel-1 frequency and peak-to-peak amplitude, channel-2 frequency and
amplitude, and the phase difference (CH2 relative to CH1). -/
structure MeasurementSample where
  freq1 : ℚ
  ampl1 : ℚ
  freq2 : ℚ
  ampl2 : ℚ
  phase_diff : ℚ
deriving DecidableEq

/-- One line of the persisted CSV table: the six columns written by
`sweep_frequency` (`freq1, ampl1, freq2, ampl2, phase_diff, gain`). -/
structure DataRow where
  freq1 : ℚ
  ampl1 : ℚ
  freq2 : ℚ
  ampl2 : ℚ
  phase_diff : ℚ
  gain : ℚ
deriving DecidableEq

/-- Build the CSV row for an accepted sample together with its computed gain. -/
def mkRow (s : MeasurementSample) (g : ℚ) : DataRow :=
  ⟨s.freq1, s.ampl1, s.freq2, s.ampl2, s.phase_diff, g⟩

/-- The sample underlying a recorded row (the first five columns). -/
def rowSample (r : DataRow) : MeasurementSample :=
  ⟨r.freq1, r.ampl1, r.freq2, r.ampl2, r.phase_diff⟩

/-- The validity guard of `sweep_frequency` (line 314):
`(freq2 > 1.5*freq1) or (freq1 > 10E9) or (ampl1 > 10E9)`.
Python `10E9` is `10^10`.  Note the guard never looks at `ampl2`. -/
def ErroneousSample (s : MeasurementSample) : Prop :=
  3/2 * s.freq1 < s.freq2 ∨ (10:ℚ)^10 < s.freq1 ∨ (10:ℚ)^10 < s.ampl1

instance (s : MeasurementSample) : Decidable (ErroneousSample s) := by
  unfold ErroneousSample
  exact inferInstance

/-- An instrument-reported error, as surfaced by `check_instrument_errors`:
the `:SYSTem:ERRor?` response string together with the offending command. -/
structure TransportError where
  message : List Char
  offending_command : List Char
deriving DecidableEq

/-- Does the `:SYSTem:ERRor?` response start with `+0,` (the "No error"
code)?  This is `error_string.find("+0,", 0, 3) == -1` negated. -/
def startsPlusZero : List Char → Bool
  | '+' :: '0' :: ',' :: _ => true
  | _ => false

/-- `check_instrument_errors` (lines 127-146): read the error queue once; an
empty response or a response whose code is not `+0,` terminates the program
(modelled as an `Except.error` carrying the response and the offending
command); a `+0,` response means no error.  The `while` loop of the source
exits on every branch of its first iteration, so one response decides. -/
def check_instrument_errors (command response : List Char) :
    Except TransportError Unit :=
  if response = [] then .error ⟨response, command⟩
  else if startsPlusZero response then .ok ()
  else .error ⟨response, command⟩

/-- Outcome of a sweep run: normal completion of the `while` loop, early
`break` after too many erroneous samples (with the printed suggested retry
range `lo`-`hi`), or program exit on an instrument/transport error.  In every
case the rows written to the CSV file before the event are kept. -/
inductive SweepOutcome where
  | completed (rows : List DataRow)
  | aborted (rows : List DataRow) (suggestLo suggestHi : ℚ)
  | transportFail (rows : List DataRow) (e : TransportError)
deriving DecidableEq

/-- The rows persisted to the CSV file in a given outcome. -/
def SweepOutcome.rows : SweepOutcome → List DataRow
  | .completed rows => rows
  | .aborted rows _ _ => rows
  | .transportFail rows _ => rows

/-- The `while (curr_freq <= end_freq)` loop of `sweep_frequency`
(lines 306-330), with explicit fuel.  Per iteration: measure at `curr`;
on a transport error exit with the rows written so far; if the sample is
erroneous, increment `error_cnt`, nudge `curr` by 2 Hz, and abort (break)
when the cumulative count exceeds 4, printing the suggested range
`100Hz - (curr_freq - step)`; otherwise append the row with its gain and
advance by the full `step`. -/
def sweepLoop (meas : ℚ → Except TransportError MeasurementSample)
    (gainFn : ℚ → ℚ → ℚ) (endF step : ℚ) (fuel : ℕ) (curr : ℚ)
    (errCnt : ℕ) (rows : List DataRow) : Option SweepOutcome :=
  if fuel = 0 then none
  else
    if curr ≤ endF then
      match meas curr with
      | .error e => some (.transportFail rows e)
      | .ok s =>
        if ErroneousSample s then
          if 4 < errCnt + 1 then
            some (.aborted rows 100 (curr + 2 - step))
          else
            sweepLoop meas gainFn endF step (fuel - 1) (curr + 2)
              (errCnt + 1) rows
        else
          sweepLoop meas gainFn endF step (fuel - 1) (curr + step) errCnt
            (rows ++ [mkRow s (gainFn s.ampl1 s.ampl2)])
    else some (.completed rows)
termination_by fuel
decreasing_by all_goals omega

/-- `sweep_frequency` (lines 278-334): compute
`step = (end_freq - start_freq)/(points-1)`, write the CSV header, program
the generator and capture one priming sample at the start frequency (not
recorded; a transport failure there already ends the program), then run the
sweep loop from `curr_freq = start_freq` with a cumulative `error_cnt = 0`. -/
def sweep_frequency (meas : ℚ → Except TransportError MeasurementSample)
    (gainFn : ℚ → ℚ → ℚ) (start_freq end_freq : ℚ) (points : ℕ)
    (fuel : ℕ) : Option SweepOutcome :=
  let step := (end_freq - start_freq) / ((points : ℚ) - 1)
  match meas start_freq with
  | .error e => some (.transportFail [] e)
  | .ok _ => sweepLoop meas gainFn end_freq step fuel start_freq 0 []

/-- Loop exit: once `curr_freq > end_freq` the `while` loop stops and the
collected rows stand. -/
lemma sweepLoop_done {meas : ℚ → Except TransportError MeasurementSample}
    {gainFn : ℚ → ℚ → ℚ} {endF step curr : ℚ} {fuel errCnt : ℕ}
    {rows : List DataRow} (hf : fuel ≠ 0) (hgt : ¬ curr ≤ endF) :
    sweepLoop meas gainFn endF step fuel curr errCnt rows =
      some (.completed rows) := by
  rw [sweepLoop]
  simp [hf, hgt]

/-- Transport failure: an instrument error at the current step ends the run
at once, keeping the rows written so far. -/
lemma sweepLoop_transport {meas : ℚ → Except TransportError MeasurementSample}
    {gainFn : ℚ → ℚ → ℚ} {endF step curr : ℚ} {fuel errCnt : ℕ}
    {rows : List DataRow} {e : TransportError} (hf : fuel ≠ 0)
    (hle : curr ≤ endF) (hm : meas curr = .error e) :
    sweepLoop meas gainFn endF step fuel curr errCnt rows =
      some (.transportFail rows e) := by
  rw [sweepLoop]
  simp [hf, hle, hm]

/-- Accepted step: a valid sample is appended (with its gain computed from
that sample's own amplitudes) and `curr_freq` advances by the full step. -/
lemma sweepLoop_accept {meas : ℚ → Except TransportError MeasurementSample}
    {gainFn : ℚ → ℚ → ℚ} {endF step curr : ℚ} {fuel errCnt : ℕ}
    {rows : List DataRow} {s : MeasurementSample} (hf : fuel ≠ 0)
    (hle : curr ≤ endF) (hm : meas curr = .ok s)
    (hs : ¬ ErroneousSample s) :
    sweepLoop meas gainFn endF step fuel curr errCnt rows =
      sweepLoop meas gainFn endF step (fuel - 1) (curr + step) errCnt
        (rows ++ [mkRow s (gainFn s.ampl1 s.ampl2)]) := by
  rw [sweepLoop]
  simp [hf, hle, hm, hs]

/-- Erroneous step with room left: `error_cnt` is incremented, nothing is
recorded, and `curr_freq` is nudged by exactly 2 Hz. -/
lemma sweepLoop_retry {meas : ℚ → Except TransportError MeasurementSample}
    {gainFn : ℚ → ℚ → ℚ} {endF step curr : ℚ} {fuel errCnt : ℕ}
    {rows : List DataRow} {s : MeasurementSample} (hf : fuel ≠ 0)
    (hle : curr ≤ endF) (hm : meas curr = .ok s) (hs : ErroneousSample s)
    (hc : errCnt + 1 ≤ 4) :
    sweepLoop meas gainFn endF step fuel curr errCnt rows =
      sweepLoop meas gainFn endF step (fuel - 1) (curr + 2) (errCnt + 1)
        rows := by
  rw [sweepLoop]
  simp [hf, hle, hm, hs]
  omega

/-- Erroneous step past the threshold: on the fifth cumulative erroneous
sample the sweep breaks out, returning the partial rows and the suggested
range `100 .. curr_freq + 2 - step`. -/
lemma sweepLoop_abort {meas : ℚ → Except TransportError MeasurementSample}
    {gainFn : ℚ → ℚ → ℚ} {endF step curr : ℚ} {fuel errCnt : ℕ}
    {rows : List DataRow} {s : MeasurementSample} (hf : fuel ≠ 0)
    (hle : curr ≤ endF) (hm : meas curr = .ok s) (hs : ErroneousSample s)
    (hc : 4 < errCnt + 1) :
    sweepLoop meas gainFn endF step fuel curr errCnt rows =
      some (.aborted rows 100 (curr + 2 - step)) := by
  rw [sweepLoop]
  simp [hf, hle, hm, hs, hc]

/-- A fault-free run of the sweep loop: if the `n` frequencies
`curr, curr + step, …, curr + (n-1)·step` are the ones the loop will visit
(all within `end_freq`, with the next one past it), the oracle answers every
one of them, and no answer is classified erroneous, then the loop completes
and appends exactly one row per visited frequency, in order. -/
lemma sweepLoop_fault_free (samp : ℚ → MeasurementSample)
    (gainFn : ℚ → ℚ → ℚ) (endF step : ℚ) :
    ∀ (n fuel : ℕ) (curr : ℚ) (errCnt : ℕ) (rows : List DataRow),
      n + 1 ≤ fuel →
      (∀ k : ℕ, k < n → curr + k * step ≤ endF) →
      endF < curr + n * step →
      (∀ k : ℕ, k < n → ¬ ErroneousSample (samp (curr + k * step))) →
      sweepLoop (fun f => .ok (samp f)) gainFn endF step fuel curr errCnt
          rows =
        some (.completed (rows ++ (List.range n).map (fun k : ℕ =>
          mkRow (samp (curr + (k : ℚ) * step))
            (gainFn (samp (curr + (k : ℚ) * step)).ampl1
              (samp (curr + (k : ℚ) * step)).ampl2)))) := by
  intro n
  induction n with
  | zero =>
    intro fuel curr errCnt rows hfuel _ hpast _
    have hgt : ¬ curr ≤ endF := by
      push_cast at hpast
      simp only [zero_mul, add_zero] at hpast
      exact not_le.mpr hpast
    rw [sweepLoop_done (by omega) hgt]
    simp
  | succ n ih =>
    intro fuel curr errCnt rows hfuel hbound hpast herr
    have hle : curr ≤ endF := by
      have := hbound 0 (by omega)
      simpa using this
    have h0 : ¬ ErroneousSample (samp curr) := by
      have := herr 0 (by omega)
      simpa using this
    rw [sweepLoop_accept (s := samp curr) (by omega) hle rfl h0]
    have hrec := ih (fuel - 1) (curr + step) errCnt
      (rows ++ [mkRow (samp curr) (gainFn (samp curr).ampl1
        (samp curr).ampl2)])
      (by omega)
      (by
        intro k hk
        have := hbound (k + 1) (by omega)
        push_cast at this ⊢
        linarith [this])
      (by
        have := hpast
        push_cast at this ⊢
        linarith [this])
      (by
        intro k hk
        have := herr (k + 1) (by omega)
        have harg : curr + ((k : ℚ) + 1) * step = curr + step + k * step := by
          ring
        push_cast at this
        rw [harg] at this
        exact this)
    rw [hrec]
    congr 1
    congr 1
    rw [List.range_succ_eq_map, List.map_cons, List.map_map]
    simp only [Nat.cast_zero, zero_mul, add_zero, List.append_assoc,
      List.singleton_append]
    congr 1
    congr 1
    apply List.map_congr_left
    intro k _
    have harg : curr + step + (k : ℚ) * step = curr + ((k : ℚ) + 1) * step := by
      ring
    simp only [Function.comp_apply]
    push_cast
    rw [harg]

/-- Dataset purity: rows appended by the sweep loop all come from samples
that passed the validity guard, so no outcome ever contains an erroneous
row. -/
lemma sweepLoop_rows_valid (meas : ℚ → Except TransportError MeasurementSample)
    (gainFn : ℚ → ℚ → ℚ) (endF step : ℚ) :
    ∀ (fuel : ℕ) (curr : ℚ) (errCnt : ℕ) (rows : List DataRow)
      (res : SweepOutcome),
      (∀ r ∈ rows, ¬ ErroneousSample (rowSample r)) →
      sweepLoop meas gainFn endF step fuel curr errCnt rows = some res →
      ∀ r ∈ res.rows, ¬ ErroneousSample (rowSample r) := by
  intro fuel
  induction fuel using Nat.strong_induction_on with
  | _ fuel ih =>
    intro curr errCnt rows res hrows hrun
    rw [sweepLoop] at hrun
    split at hrun
    · exact absurd hrun (by simp)
    · next hf =>
      split at hrun
      · split at hrun
        · next e heq =>
          obtain rfl : SweepOutcome.transportFail rows e = res := by
            simpa using hrun
          simpa [SweepOutcome.rows] using hrows
        · next s heq =>
          split at hrun
          · next hserr =>
            split at hrun
            · obtain rfl : SweepOutcome.aborted rows 100 (curr + 2 - step) =
                  res := by simpa using hrun
              simpa [SweepOutcome.rows] using hrows
            · exact ih (fuel - 1) (by omega) _ _ _ _ hrows hrun
          · next hsok =>
            refine ih (fuel - 1) (by omega) _ _ _ _ ?_ hrun
            intro r hr
            rcases List.mem_append.mp hr with hr | hr
            · exact hrows r hr
            · have : r = mkRow s (gainFn s.ampl1 s.ampl2) := by simpa using hr
              subst this
              simpa [rowSample, mkRow] using hsok
      · obtain rfl : SweepOutcome.completed rows = res := by simpa using hrun
        simpa [SweepOutcome.rows] using hrows
/-- Python `max(gain_arr)` on a non-empty list (first element seeds the
fold; ties keep the earlier value, which for plain values is the value
itself). -/
def maxQ : List ℚ → ℚ
  | [] => 0
  | a :: l => l.foldl max a

/-- The fold behind Python `min(lst, key=k)`: keep the accumulator unless a
later element has a strictly smaller key, so the first element with the
minimal key wins. -/
def pyMinFold (k : ℚ → ℚ) : ℚ → List ℚ → ℚ
  | acc, [] => acc
  | acc, x :: l => pyMinFold k (if k x < k acc then x else acc) l

/-- Python `min(lst, key=k)` on a non-empty list. -/
def pyMin (k : ℚ → ℚ) : List ℚ → ℚ
  | [] => 0
  | a :: l => pyMinFold k a l

/-- Python `lst.index(x)`: position of the first occurrence of `x`. -/
def listIndex (x : ℚ) : List ℚ → ℕ
  | [] => 0
  | a :: l => if a = x then 0 else listIndex x l + 1

/-- Line 90 of `interactivePlot.py`:
`gain_arr.index(min(gain_arr, key=lambda x: abs(x - (max(gain_arr)-3))))`. -/
def cutoffIndex (gains : List ℚ) : ℕ :=
  listIndex (pyMin (fun x => |x - (maxQ gains - 3)|) gains) gains

/-- The derived analysis record: the chosen index, the gain and phase values
at that index (the `-3dB Line` annotations of lines 91-92), and the maximum
gain used as the reference for the -3 dB target. -/
structure CutoffResult where
  cutoff_index : ℕ
  cutoff_gain_db : ℚ
  cutoff_phase_deg : ℚ
  reference_gain_db : ℚ
deriving DecidableEq

/-- The cutoff analysis applied to the parsed gain and phase arrays. -/
def analyzeArrays (gains phases : List ℚ) : CutoffResult :=
  ⟨cutoffIndex gains, gains.getD (cutoffIndex gains) 0,
    phases.getD (cutoffIndex gains) 0, maxQ gains⟩

lemma foldl_max_mem (l : List ℚ) : ∀ a : ℚ, l.foldl max a = a ∨
    l.foldl max a ∈ l := by
  induction l with
  | nil => intro a; simp
  | cons x l ih =>
    intro a
    rcases ih (max a x) with h | h
    · rcases max_choice a x with hm | hm
      · exact Or.inl (by rw [List.foldl_cons, h, hm])
      · exact Or.inr (by rw [List.foldl_cons, h, hm]; exact List.mem_cons_self x l)
    · exact Or.inr (List.mem_cons_of_mem x h)

lemma foldl_max_le (l : List ℚ) : ∀ a : ℚ,
    a ≤ l.foldl max a ∧ ∀ x ∈ l, x ≤ l.foldl max a := by
  induction l with
  | nil => intro a; simp
  | cons y l ih =>
    intro a
    obtain ⟨h1, h2⟩ := ih (max a y)
    refine ⟨le_trans (le_max_left a y) h1, ?_⟩
    intro x hx
    rcases List.mem_cons.mp hx with rfl | hx
    · exact le_trans (le_max_right a x) h1
    · exact h2 x hx

/-- `max(gain_arr)` is an element of the list and bounds every element. -/
lemma maxQ_spec (l : List ℚ) (h : l ≠ []) :
    maxQ l ∈ l ∧ ∀ x ∈ l, x ≤ maxQ l := by
  cases l with
  | nil => exact absurd rfl h
  | cons a l =>
    constructor
    · rcases foldl_max_mem l a with h1 | h1
      · rw [maxQ, h1]; exact List.mem_cons_self a l
      · rw [maxQ]; exact List.mem_cons_of_mem a h1
    · intro x hx
      obtain ⟨h1, h2⟩ := foldl_max_le l a
      rcases List.mem_cons.mp hx with rfl | hx
      · exact h1
      · exact h2 x hx

/-- Positional specification of Python `min(lst, key=k)` run as a fold with
seed `a`: the result sits at some position `p` of `a :: l`, its key is
minimal over the whole list, and every earlier position has a strictly
larger key (first occurrence of the minimal key wins). -/
lemma pyMinFold_spec (k : ℚ → ℚ) :
    ∀ (l : List ℚ) (a : ℚ),
      ∃ p, p < (a :: l).length ∧ (a :: l).getD p 0 = pyMinFold k a l ∧
        (∀ j, j < (a :: l).length →
          k (pyMinFold k a l) ≤ k ((a :: l).getD j 0)) ∧
        (∀ j, j < p → k (pyMinFold k a l) < k ((a :: l).getD j 0)) := by
  intro l
  induction l with
  | nil =>
    intro a
    refine ⟨0, by simp, by simp [pyMinFold], ?_, by omega⟩
    intro j hj
    simp only [List.length_cons, List.length_nil] at hj
    obtain rfl : j = 0 := by omega
    simp [pyMinFold]
  | cons x l ih =>
    intro a
    by_cases hxa : k x < k a
    · obtain ⟨p, hlen, hget, hmin, hstrict⟩ := ih x
      have hres : pyMinFold k a (x :: l) = pyMinFold k x l := by
        rw [pyMinFold, if_pos hxa]
      have hrx : k (pyMinFold k x l) ≤ k x := by
        have := hmin 0 (by simp)
        simpa using this
      refine ⟨p + 1, ?_, ?_, ?_, ?_⟩
      · simp only [List.length_cons] at hlen ⊢
        omega
      · rw [List.getD_cons_succ, hres]
        exact hget
      · intro j hj
        rcases j with _ | j
        · rw [List.getD_cons_zero, hres]
          exact le_trans hrx (le_of_lt hxa)
        · rw [List.getD_cons_succ, hres]
          apply hmin
          simp only [List.length_cons] at hj ⊢
          omega
      · intro j hj
        rcases j with _ | j
        · rw [List.getD_cons_zero, hres]
          exact lt_of_le_of_lt hrx hxa
        · rw [List.getD_cons_succ, hres]
          exact hstrict j (by omega)
    · obtain ⟨p, hlen, hget, hmin, hstrict⟩ := ih a
      have hax : k a ≤ k x := le_of_not_lt hxa
      have hres : pyMinFold k a (x :: l) = pyMinFold k a l := by
        rw [pyMinFold, if_neg hxa]
      have hra : k (pyMinFold k a l) ≤ k a := by
        have := hmin 0 (by simp)
        simpa using this
      rcases p with _ | q
      · have hres0 : a = pyMinFold k a l := by
          have := hget
          rwa [List.getD_cons_zero] at this
        refine ⟨0, by simp, ?_, ?_, by omega⟩
        · rw [List.getD_cons_zero, hres]
          exact hres0
        · intro j hj
          rcases j with _ | j
          · rw [List.getD_cons_zero, hres]
            exact hra
          · rcases j with _ | j
            · rw [List.getD_cons_succ, List.getD_cons_zero, hres]
              exact le_trans hra hax
            · rw [List.getD_cons_succ, List.getD_cons_succ, hres]
              have hj' : j + 1 < (a :: l).length := by
                simp only [List.length_cons] at hj ⊢
                omega
              have := hmin (j + 1) hj'
              rwa [List.getD_cons_succ] at this
      · have hgetq : l.getD q 0 = pyMinFold k a l := by
          have := hget
          rwa [List.getD_cons_succ] at this
        refine ⟨q + 2, ?_, ?_, ?_, ?_⟩
        · simp only [List.length_cons] at hlen ⊢
          omega
        · rw [List.getD_cons_succ, List.getD_cons_succ, hres]
          exact hgetq
        · intro j hj
          rcases j with _ | j
          · rw [List.getD_cons_zero, hres]
            exact hra
          · rcases j with _ | j
            · rw [List.getD_cons_succ, List.getD_cons_zero, hres]
              exact le_trans hra hax
            · rw [List.getD_cons_succ, List.getD_cons_succ, hres]
              have hj' : j + 1 < (a :: l).length := by
                simp only [List.length_cons] at hj ⊢
                omega
              have := hmin (j + 1) hj'
              rwa [List.getD_cons_succ] at this
        · intro j hj
          have hstr0 : k (pyMinFold k a l) < k a := by
            have := hstrict 0 (by omega)
            rwa [List.getD_cons_zero] at this
          rcases j with _ | j
          · rw [List.getD_cons_zero, hres]
            exact hstr0
          · rcases j with _ | j
            · rw [List.getD_cons_succ, List.getD_cons_zero, hres]
              exact lt_of_lt_of_le hstr0 hax
            · rw [List.getD_cons_succ, List.getD_cons_succ, hres]
              have := hstrict (j + 1) (by omega)
              rwa [List.getD_cons_succ] at this

/-- Python `lst.index(x)` for a present element: in range, hits `x`, and
nothing before it is `x`. -/
lemma listIndex_spec (x : ℚ) : ∀ l : List ℚ, x ∈ l →
    listIndex x l < l.length ∧ l.getD (listIndex x l) 0 = x ∧
      ∀ j, j < listIndex x l → l.getD j 0 ≠ x := by
  intro l
  induction l with
  | nil =>
    intro h
    simp at h
  | cons a l ih =>
    intro hx
    by_cases hax : a = x
    · refine ⟨by simp [listIndex, hax], ?_, ?_⟩
      · rw [listIndex, if_pos hax, List.getD_cons_zero]
        exact hax
      · intro j hj
        rw [listIndex, if_pos hax] at hj
        exact absurd hj (Nat.not_lt_zero j)
    · have hxl : x ∈ l := by
        rcases List.mem_cons.mp hx with rfl | h
        · exact absurd rfl hax
        · exact h
      obtain ⟨h1, h2, h3⟩ := ih hxl
      refine ⟨?_, ?_, ?_⟩
      · rw [listIndex, if_neg hax]
        simp only [List.length_cons]
        omega
      · rw [listIndex, if_neg hax, List.getD_cons_succ]
        exact h2
      · intro j hj
        rw [listIndex, if_neg hax] at hj
        rcases j with _ | j
        · rw [List.getD_cons_zero]
          exact hax
        · rw [List.getD_cons_succ]
          exact h3 j (by omega)

/-- The cutoff index of a non-empty gain list: in range, minimises
`|gain - (max - 3)|` over the whole list, and strictly beats every earlier
index (first occurrence wins on ties). -/
lemma cutoffIndex_spec (gains : List ℚ) (h : gains ≠ []) :
    cutoffIndex gains < gains.length ∧
    (∀ j, j < gains.length →
      |gains.getD (cutoffIndex gains) 0 - (maxQ gains - 3)| ≤
        |gains.getD j 0 - (maxQ gains - 3)|) ∧
    (∀ j, j < cutoffIndex gains →
      |gains.getD (cutoffIndex gains) 0 - (maxQ gains - 3)| <
        |gains.getD j 0 - (maxQ gains - 3)|) := by
  cases gains with
  | nil => exact absurd rfl h
  | cons a l =>
    set k : ℚ → ℚ := fun x => |x - (maxQ (a :: l) - 3)| with hk
    obtain ⟨p, hlen, hget, hmin, hstrict⟩ := pyMinFold_spec k l a
    have hm : pyMin k (a :: l) = pyMinFold k a l := rfl
    have hmem : pyMin k (a :: l) ∈ (a :: l) := by
      rw [hm, ← hget, List.getD_eq_getElem?_getD, List.getElem?_eq_getElem hlen]
      simp only [Option.getD_some]
      exact List.getElem_mem hlen
    obtain ⟨h1, h2, h3⟩ := listIndex_spec (pyMin k (a :: l)) (a :: l) hmem
    have hidx : cutoffIndex (a :: l) = listIndex (pyMin k (a :: l)) (a :: l) :=
      rfl
    have hple : listIndex (pyMin k (a :: l)) (a :: l) ≤ p := by
      by_contra hgt
      exact h3 p (by omega) hget
    refine ⟨by rw [hidx]; exact h1, ?_, ?_⟩
    · intro j hj
      have hkey : k ((a :: l).getD (cutoffIndex (a :: l)) 0) ≤
          k ((a :: l).getD j 0) := by
        rw [hidx, h2, hm]
        exact hmin j hj
      simpa [hk] using hkey
    · intro j hj
      have hkey : k ((a :: l).getD (cutoffIndex (a :: l)) 0) <
          k ((a :: l).getD j 0) := by
        rw [hidx, h2, hm]
        exact hstrict j (by omega)
      simpa [hk] using hkey
/-- Decimal digits of a natural number, least significant first. -/
def natDigits (n : ℕ) : List ℕ :=
  if n = 0 then [] else n % 10 :: natDigits (n / 10)
termination_by n
decreasing_by exact Nat.div_lt_self (by omega) (by norm_num)

/-- Value of a least-significant-first digit list. -/
def natOfDigitsLE : List ℕ → ℕ
  | [] => 0
  | d :: ds => d + 10 * natOfDigitsLE ds

/-- The character for a decimal digit. -/
def digitChar (d : ℕ) : Char := Char.ofNat (48 + d)

/-- The digit value of a character. -/
def digitVal (c : Char) : ℕ := c.toNat - 48

/-- Big-endian decimal rendering of a natural number. -/
def renderNat (n : ℕ) : List Char :=
  if n = 0 then ['0'] else ((natDigits n).map digitChar).reverse

/-- Value of a big-endian digit string. -/
def natOfDigits (ds : List Char) : ℕ :=
  natOfDigitsLE ((ds.map digitVal).reverse)

/-- Exact text rendering of a rational number, `[-]numerator/denominator`.
This abstracts Python `repr(float)` in the writer: what matters for the
store is that the written text parses back to exactly the written value,
which holds for `repr`/`float` and holds here. -/
def renderQ (q : ℚ) : List Char :=
  (if q.num < 0 then ['-'] else []) ++ renderNat q.num.natAbs ++
    '/' :: renderNat q.den

/-- Parser for the unsigned `a/b` form: a digit run, a slash, a digit run,
nothing else.  Abstracts Python `float(text)` (which raises `ValueError` on
non-numeric fields such as the CSV header titles — modelled as `none`). -/
def parsePos (cs : List Char) : Option ℚ :=
  if cs.takeWhile Char.isDigit = [] then none
  else if (cs.dropWhile Char.isDigit).head? = some '/' then
    if (cs.dropWhile Char.isDigit).tail.takeWhile Char.isDigit = [] then none
    else if (cs.dropWhile Char.isDigit).tail.dropWhile Char.isDigit = [] then
      some ((natOfDigits (cs.takeWhile Char.isDigit) : ℚ) /
        (natOfDigits ((cs.dropWhile Char.isDigit).tail.takeWhile
          Char.isDigit) : ℚ))
    else none
  else none

/-- Signed-number parser: an optional leading minus, then the unsigned form. -/
def parseQ (cs : List Char) : Option ℚ :=
  if cs.head? = some '-' then (parsePos cs.tail).map (fun q => -q)
  else parsePos cs

/-- Prepend a character to the first group of a split result. -/
def headCons (c : Char) : List (List Char) → List (List Char)
  | [] => [[c]]
  | g :: gs => (c :: g) :: gs

/-- Python `line.split(", ")`: cut the character list at each (non-nested)
occurrence of a comma followed by a space. -/
def splitCommaSpace : List Char → List (List Char)
  | [] => [[]]
  | [c] => headCons c [[]]
  | c :: d :: rest =>
    if c = ',' ∧ d = ' ' then [] :: splitCommaSpace rest
    else headCons c (splitCommaSpace (d :: rest))

/-- Join fields with the `", "` separator (the writer side of the row
format `f"{freq1}, {ampl1}, {freq2}, {ampl2}, {phase_diff}, {gain}"`). -/
def joinCommaSpace : List (List Char) → List Char
  | [] => []
  | [f] => f
  | f :: g :: fs => f ++ ',' :: ' ' :: joinCommaSpace (g :: fs)

/-- The header row written at line 295 of the source. -/
def headerLine : List Char :=
  "CH1_FREQ [Hz], CH1_AMPL [Vpp], CH2_FREQ [Hz], CH2_AMPL [Vpp], PHASE_DIFF [Deg], GAIN [dB]".data

/-- One persisted CSV data row (line 327 of the source). -/
def renderRow (r : DataRow) : List Char :=
  joinCommaSpace [renderQ r.freq1, renderQ r.ampl1, renderQ r.freq2,
    renderQ r.ampl2, renderQ r.phase_diff, renderQ r.gain]

/-- The persisted file: one header line, then one six-column line per
accepted row, in sweep order. -/
def writeDataset (rows : List DataRow) : List (List Char) :=
  headerLine :: rows.map renderRow

/-- The reader of `interactivePlot.plot_bode` (lines 48-56): split a line on
`", "`, convert all six fields with `float`, and keep `(f1, pd, gain)`; any
failure (wrong column count or a non-numeric field, e.g. the header) skips
the line. -/
def parseLine (l : List Char) : Option (ℚ × ℚ × ℚ) :=
  match splitCommaSpace l with
  | [c1, c2, c3, c4, c5, c6] =>
    match parseQ c1, parseQ c2, parseQ c3, parseQ c4, parseQ c5, parseQ c6 with
    | some f1, some _, some _, some _, some pd, some g => some (f1, pd, g)
    | _, _, _, _, _, _ => none
  | _ => none

/-- Parse the whole file, skipping malformed lines. -/
def readDataset (lines : List (List Char)) : List (ℚ × ℚ × ℚ) :=
  lines.filterMap parseLine

/-- The analysis path of `interactivePlot.plot_bode`: parse the file into
the frequency/phase/gain arrays, then compute the cutoff annotation data.
An empty parsed dataset crashes on `freq_arr[0]` (line 85) before the
cutoff computation — modelled as `none`.  A dataset with at least one row
is analysed without any entry-count check. -/
def plot_bode (lines : List (List Char)) : Option CutoffResult :=
  let t := readDataset lines
  if t.isEmpty then none
  else some (analyzeArrays (t.map fun v => v.2.2) (t.map fun v => v.2.1))

lemma natDigits_lt (n : ℕ) : ∀ d ∈ natDigits n, d < 10 := by
  induction n using Nat.strong_induction_on with
  | _ n ih =>
    rw [natDigits]
    split
    · simp
    · next hn =>
      intro d hd
      rcases List.mem_cons.mp hd with rfl | hd
      · exact Nat.mod_lt _ (by norm_num)
      · exact ih (n / 10) (Nat.div_lt_self (by omega) (by norm_num)) d hd

lemma natOfDigitsLE_natDigits (n : ℕ) : natOfDigitsLE (natDigits n) = n := by
  induction n using Nat.strong_induction_on with
  | _ n ih =>
    rw [natDigits]
    split
    · next hn => simp [natOfDigitsLE, hn]
    · next hn =>
      rw [natOfDigitsLE, ih (n / 10) (Nat.div_lt_self (by omega) (by norm_num))]
      exact Nat.mod_add_div n 10

lemma digitVal_digitChar (d : ℕ) (h : d < 10) :
    digitVal (digitChar d) = d := by
  interval_cases d <;> decide

lemma digitChar_isDigit (d : ℕ) (h : d < 10) :
    (digitChar d).isDigit = true := by
  interval_cases d <;> decide

lemma renderNat_digits (n : ℕ) : ∀ c ∈ renderNat n, c.isDigit = true := by
  rw [renderNat]
  split
  · intro c hc
    obtain rfl : c = '0' := by simpa using hc
    decide
  · intro c hc
    rw [List.mem_reverse] at hc
    obtain ⟨d, hd, rfl⟩ := List.mem_map.mp hc
    exact digitChar_isDigit d (natDigits_lt n d hd)

lemma renderNat_ne_nil (n : ℕ) : renderNat n ≠ [] := by
  rw [renderNat]
  split
  · simp
  · next hn =>
    intro hcontra
    have : natDigits n = [] := by
      have := congrArg List.length hcontra
      simp at this
      simpa using this
    rw [natDigits] at this
    simp [hn] at this

lemma natOfDigits_renderNat (n : ℕ) : natOfDigits (renderNat n) = n := by
  rw [renderNat]
  split
  · next hn =>
    subst hn
    decide
  · rw [natOfDigits, List.map_reverse, List.reverse_reverse, List.map_map]
    have hmap : (natDigits n).map (digitVal ∘ digitChar) = natDigits n := by
      have := List.map_congr_left (l := natDigits n)
        (f := digitVal ∘ digitChar) (g := id)
        (fun d hd => by
          simp only [Function.comp_apply, id_eq]
          exact digitVal_digitChar d (natDigits_lt n d hd))
      rw [this, List.map_id]
    rw [hmap, natOfDigitsLE_natDigits]
lemma takeWhile_all {p : Char → Bool} :
    ∀ l : List Char, (∀ c ∈ l, p c = true) →
      l.takeWhile p = l ∧ l.dropWhile p = [] := by
  intro l
  induction l with
  | nil => intro _; simp
  | cons c l ih =>
    intro h
    have hc : p c = true := h c (List.mem_cons_self c l)
    obtain ⟨h1, h2⟩ := ih (fun x hx => h x (List.mem_cons_of_mem c hx))
    rw [List.takeWhile_cons, List.dropWhile_cons]
    simp [hc, h1, h2]

lemma takeWhile_append_sep {p : Char → Bool} (x : Char) (hx : p x = false) :
    ∀ (l1 l2 : List Char), (∀ c ∈ l1, p c = true) →
      (l1 ++ x :: l2).takeWhile p = l1 ∧
        (l1 ++ x :: l2).dropWhile p = x :: l2 := by
  intro l1
  induction l1 with
  | nil =>
    intro l2 _
    rw [List.nil_append, List.takeWhile_cons, List.dropWhile_cons]
    simp [hx]
  | cons c l1 ih =>
    intro l2 h
    have hc : p c = true := h c (List.mem_cons_self c l1)
    obtain ⟨h1, h2⟩ := ih l2 (fun y hy => h y (List.mem_cons_of_mem c hy))
    rw [List.cons_append, List.takeWhile_cons, List.dropWhile_cons]
    simp [hc, h1, h2]

lemma parsePos_render (a b : ℕ) :
    parsePos (renderNat a ++ '/' :: renderNat b) =
      some ((a : ℚ) / (b : ℚ)) := by
  have hslash : Char.isDigit '/' = false := by decide
  obtain ⟨hta, hda⟩ :=
    takeWhile_append_sep '/' hslash (renderNat a) (renderNat b)
      (renderNat_digits a)
  obtain ⟨htb, hdb⟩ := takeWhile_all (renderNat b) (renderNat_digits b)
  rw [parsePos]
  rw [hta, hda]
  simp only [List.head?_cons, List.tail_cons]
  rw [htb, hdb]
  rw [if_neg (renderNat_ne_nil a)]
  simp [renderNat_ne_nil b, natOfDigits_renderNat]

lemma parseQ_renderQ (q : ℚ) : parseQ (renderQ q) = some q := by
  by_cases hneg : q.num < 0
  · rw [renderQ, if_pos hneg, parseQ]
    simp only [List.cons_append, List.nil_append, List.head?_cons,
      List.tail_cons, if_pos rfl]
    rw [parsePos_render]
    simp only [if_true, Option.map_some']
    rw [Int.cast_natAbs, abs_of_neg hneg]
    push_cast
    rw [neg_div, neg_neg, Rat.num_div_den]
  · rw [renderQ, if_neg hneg, parseQ]
    simp only [List.nil_append]
    have hh : (renderNat q.num.natAbs ++ '/' :: renderNat q.den).head? ≠
        some '-' := by
      cases hrn : renderNat q.num.natAbs with
      | nil => exact absurd hrn (renderNat_ne_nil _)
      | cons c cs =>
        have hcd : c.isDigit = true := renderNat_digits _ c
          (by rw [hrn]; exact List.mem_cons_self c cs)
        simp only [List.cons_append, List.head?_cons]
        intro hcontra
        have hc : c = '-' := by simpa using hcontra
        rw [hc] at hcd
        exact absurd hcd (by decide)
    rw [if_neg hh, parsePos_render]
    rw [Int.cast_natAbs, abs_of_nonneg (le_of_not_lt hneg), Rat.num_div_den]
lemma splitCommaSpace_no_comma :
    ∀ f : List Char, (∀ c ∈ f, c ≠ ',') → splitCommaSpace f = [f] := by
  intro f
  induction f with
  | nil => intro _; rfl
  | cons c f ih =>
    intro h
    have hc : c ≠ ',' := h c (List.mem_cons_self c f)
    have htail := fun x hx => h x (List.mem_cons_of_mem c hx)
    cases f with
    | nil => simp [splitCommaSpace, headCons]
    | cons d f' =>
      simp only [splitCommaSpace]
      rw [if_neg (by rintro ⟨h1, -⟩; exact hc h1)]
      rw [ih htail]
      rfl

lemma splitCommaSpace_append (rest : List Char) :
    ∀ f : List Char, (∀ c ∈ f, c ≠ ',') →
      splitCommaSpace (f ++ ',' :: ' ' :: rest) = f :: splitCommaSpace rest := by
  intro f
  induction f with
  | nil =>
    intro _
    rw [List.nil_append]
    simp [splitCommaSpace]
  | cons c f ih =>
    intro h
    have hc : c ≠ ',' := h c (List.mem_cons_self c f)
    have htail := ih (fun x hx => h x (List.mem_cons_of_mem c hx))
    cases f with
    | nil =>
      rw [List.cons_append, List.nil_append]
      simp only [splitCommaSpace]
      rw [if_neg (by rintro ⟨h1, -⟩; exact hc h1)]
      simp [headCons]
    | cons d f' =>
      rw [List.cons_append]
      simp only [splitCommaSpace]
      rw [if_neg (by rintro ⟨h1, -⟩; exact hc h1)]
      have htail' : splitCommaSpace (d :: f'.append (',' :: ' ' :: rest)) =
          (d :: f') :: splitCommaSpace rest := htail
      rw [htail']
      rfl

lemma splitCommaSpace_join :
    ∀ fs : List (List Char), fs ≠ [] →
      (∀ f ∈ fs, ∀ c ∈ f, c ≠ ',') →
      splitCommaSpace (joinCommaSpace fs) = fs := by
  intro fs
  induction fs with
  | nil => intro h; exact absurd rfl h
  | cons f fs ih =>
    intro _ h
    cases fs with
    | nil =>
      rw [joinCommaSpace]
      exact splitCommaSpace_no_comma f (h f (List.mem_cons_self f []))
    | cons g gs =>
      rw [joinCommaSpace, splitCommaSpace_append _ f
        (h f (List.mem_cons_self f (g :: gs)))]
      rw [ih (by simp) (fun f' hf' => h f' (List.mem_cons_of_mem f hf'))]

lemma renderQ_no_comma (q : ℚ) : ∀ c ∈ renderQ q, c ≠ ',' := by
  intro c hc
  rw [renderQ] at hc
  have hdig : ∀ n : ℕ, c ∈ renderNat n → c ≠ ',' := by
    intro n hn hcontra
    have := renderNat_digits n c hn
    rw [hcontra] at this
    exact absurd this (by decide)
  rcases List.mem_append.mp hc with h1 | h1
  · rcases List.mem_append.mp h1 with h2 | h2
    · split at h2
      · obtain rfl : c = '-' := by simpa using h2
        decide
      · simp at h2
    · exact hdig _ h2
  · rcases List.mem_cons.mp h1 with rfl | h3
    · decide
    · exact hdig _ h3

lemma parseLine_header : parseLine headerLine = none := by decide

lemma parseLine_renderRow (r : DataRow) :
    parseLine (renderRow r) = some (r.freq1, r.phase_diff, r.gain) := by
  have hsplit : splitCommaSpace (renderRow r) =
      [renderQ r.freq1, renderQ r.ampl1, renderQ r.freq2, renderQ r.ampl2,
        renderQ r.phase_diff, renderQ r.gain] := by
    apply splitCommaSpace_join
    · simp
    · intro f hf
      simp only [List.mem_cons, List.not_mem_nil, or_false] at hf
      rcases hf with rfl | rfl | rfl | rfl | rfl | rfl <;>
        exact renderQ_no_comma _
  rw [parseLine, hsplit]
  simp [parseQ_renderQ]

lemma readDataset_writeDataset (rows : List DataRow) :
    readDataset (writeDataset rows) =
      rows.map (fun r => (r.freq1, r.phase_diff, r.gain)) := by
  have hrows : ∀ rs : List DataRow,
      List.filterMap parseLine (rs.map renderRow) =
        rs.map (fun r => (r.freq1, r.phase_diff, r.gain)) := by
    intro rs
    induction rs with
    | nil => simp
    | cons r rs ih =>
      simp only [List.map_cons, List.filterMap_cons, parseLine_renderRow, ih]
  rw [readDataset, writeDataset, List.filterMap_cons, parseLine_header]
  exact hrows rows

lemma plot_bode_writeDataset (rows : List DataRow) :
    plot_bode (writeDataset rows) =
      if rows.isEmpty then none
      else some (analyzeArrays (rows.map DataRow.gain)
        (rows.map DataRow.phase_diff)) := by
  rw [plot_bode, readDataset_writeDataset]
  cases rows with
  | nil => simp
  | cons r rs =>
    simp only [List.isEmpty_cons, List.map_cons, Bool.false_eq_true,
      if_false, List.map_map]
    rfl
/-- Unfold `sweep_frequency` when the priming capture succeeds. -/
lemma sweep_frequency_ok {meas : ℚ → Except TransportError MeasurementSample}
    {gainFn : ℚ → ℚ → ℚ} {a b : ℚ} {points fuel : ℕ}
    {s : MeasurementSample} (hm : meas a = .ok s) :
    sweep_frequency meas gainFn a b points fuel =
      sweepLoop meas gainFn b ((b - a) / ((points : ℚ) - 1)) fuel a 0 [] := by
  rw [sweep_frequency, hm]

/-- Claim C1 (amended): for a `SweepPlan` with `step_count ≥ 2` **and**
`start_freq_hz < stop_freq_hz`, a fault-free sweep — every visited frequency
measured without transport error, classified non-erroneous, and reported
back as the driven `input_freq_hz` — completes with exactly `step_count`
recorded rows, the recorded `input_freq_hz` values are non-decreasing, and
each row's `gain_db` is the gain function applied to that row's own
amplitudes (`20·log10(output_ampl_vpp/input_ampl_vpp)` in the source). -/
theorem claim_C1 (samp : ℚ → MeasurementSample) (gainFn : ℚ → ℚ → ℚ)
    (start_freq end_freq : ℚ) (points : ℕ) (hp : 2 ≤ points)
    (hlt : start_freq < end_freq)
    (hok : ∀ f, start_freq ≤ f → f ≤ end_freq → ¬ ErroneousSample (samp f))
    (hfaith : ∀ f, start_freq ≤ f → f ≤ end_freq → (samp f).freq1 = f) :
    ∃ rows : List DataRow,
      sweep_frequency (fun f => .ok (samp f)) gainFn start_freq end_freq
          points (points + 2) = some (.completed rows) ∧
      rows.length = points ∧
      List.Sorted (· ≤ ·) (rows.map DataRow.freq1) ∧
      ∀ r ∈ rows, r.gain = gainFn r.ampl1 r.ampl2 := by
  obtain ⟨step, hstepdef⟩ :
      ∃ s : ℚ, s = (end_freq - start_freq) / ((points : ℚ) - 1) := ⟨_, rfl⟩
  have hden : (0:ℚ) < (points : ℚ) - 1 := by
    have h2 : (2:ℚ) ≤ (points : ℚ) := by exact_mod_cast hp
    linarith
  have hstep : 0 < step := by
    rw [hstepdef]
    exact div_pos (by linarith) hden
  have hkey : ((points : ℚ) - 1) * step = end_freq - start_freq := by
    rw [hstepdef]
    field_simp
  have hbound : ∀ k : ℕ, k < points →
      start_freq + (k : ℚ) * step ≤ end_freq := by
    intro k hk
    have hkle : (k : ℚ) ≤ (points : ℚ) - 1 := by
      have : (k : ℚ) + 1 ≤ (points : ℚ) := by exact_mod_cast hk
      linarith
    have hmul : (k : ℚ) * step ≤ ((points : ℚ) - 1) * step :=
      mul_le_mul_of_nonneg_right hkle (le_of_lt hstep)
    rw [hkey] at hmul
    linarith
  have hpast : end_freq < start_freq + (points : ℚ) * step := by
    have hsplit : (points : ℚ) * step = ((points : ℚ) - 1) * step + step := by
      ring
    rw [hsplit, hkey]
    linarith
  have hrange : ∀ k : ℕ, k < points →
      start_freq ≤ start_freq + (k : ℚ) * step := by
    intro k _
    have : 0 ≤ (k : ℚ) * step := mul_nonneg (by positivity) (le_of_lt hstep)
    linarith
  refine ⟨(List.range points).map (fun k : ℕ =>
    mkRow (samp (start_freq + (k : ℚ) * step))
      (gainFn (samp (start_freq + (k : ℚ) * step)).ampl1
        (samp (start_freq + (k : ℚ) * step)).ampl2)), ?_, ?_, ?_, ?_⟩
  · rw [sweep_frequency_ok rfl, ← hstepdef]
    have hrun := sweepLoop_fault_free samp gainFn end_freq step points
      (points + 2) start_freq 0 [] (by omega) hbound hpast
      (fun k hk => hok _ (hrange k hk) (hbound k hk))
    simpa using hrun
  · simp
  · rw [List.map_map]
    have hmapeq : (List.range points).map
        (DataRow.freq1 ∘ fun k : ℕ =>
          mkRow (samp (start_freq + (k : ℚ) * step))
            (gainFn (samp (start_freq + (k : ℚ) * step)).ampl1
              (samp (start_freq + (k : ℚ) * step)).ampl2)) =
        (List.range points).map (fun k : ℕ => start_freq + (k : ℚ) * step) := by
      apply List.map_congr_left
      intro k hk
      have hkr := List.mem_range.mp hk
      simp only [Function.comp_apply, mkRow]
      exact hfaith _ (hrange k hkr) (hbound k hkr)
    rw [hmapeq]
    apply List.Pairwise.map (R := (· < ·))
    · intro a b hab
      have hcast : (a : ℚ) ≤ (b : ℚ) := by exact_mod_cast le_of_lt hab
      have := mul_le_mul_of_nonneg_right hcast (le_of_lt hstep)
      linarith
    · exact List.pairwise_lt_range points
  · intro r hr
    obtain ⟨k, _, rfl⟩ := List.mem_map.mp hr
    simp [mkRow]

/-- Claim C1 counterexample, refuting two parts of the claim as stated.
Part 1: a `SweepPlan` with `step_count = 2 ≥ 2` but a descending range
(`start_freq = 2 > 1 = stop_freq`) is fault-free (the loop body never runs,
so no sample is ever classified erroneous) yet records 0 rows, not
`step_count = 2` — forcing the added `start_freq_hz < stop_freq_hz`.
Part 2: an ascending sweep (1 Hz to 3 Hz in 3 steps) against an instrument
that reports `freq1 = 10 − f` for driven frequency `f` is also fault-free —
each of the three returned samples passes the line-314 guard, none is
classified erroneous, and the run completes with all 3 rows — yet the
recorded `input_freq_hz` column is `[9, 8, 7]`, which is **not**
non-decreasing: the non-decreasing clause additionally needs the
instrument to report the driven frequency back. -/
theorem claim_C1_counterexample :
    (sweep_frequency (fun f => .ok ⟨f, 1, f, 1, 0⟩) (fun _ _ => 0) 2 1 2 5 =
      some (.completed []) ∧ (0 : ℕ) ≠ 2) ∧
    (sweep_frequency (fun f => .ok ⟨10 - f, 1, 0, 1, 0⟩) (fun _ _ => 0)
        1 3 3 6 =
      some (.completed [mkRow ⟨9, 1, 0, 1, 0⟩ 0, mkRow ⟨8, 1, 0, 1, 0⟩ 0,
        mkRow ⟨7, 1, 0, 1, 0⟩ 0]) ∧
      ¬ ErroneousSample ⟨9, 1, 0, 1, 0⟩ ∧
      ¬ ErroneousSample ⟨8, 1, 0, 1, 0⟩ ∧
      ¬ ErroneousSample ⟨7, 1, 0, 1, 0⟩ ∧
      [mkRow ⟨9, 1, 0, 1, 0⟩ 0, mkRow ⟨8, 1, 0, 1, 0⟩ 0,
        mkRow ⟨7, 1, 0, 1, 0⟩ 0].map DataRow.freq1 = [9, 8, 7] ∧
      ¬ List.Sorted (· ≤ ·) [(9 : ℚ), 8, 7]) := by
  have hok : ∀ a : ℚ, 0 ≤ a → a ≤ 10^10 →
      ¬ ErroneousSample ⟨a, 1, 0, 1, 0⟩ := by
    intro a h1 h2
    simp only [ErroneousSample]
    push_neg
    norm_num
    exact ⟨by linarith, h2⟩
  have hok9 := hok 9 (by norm_num) (by norm_num)
  have hok8 := hok 8 (by norm_num) (by norm_num)
  have hok7 := hok 7 (by norm_num) (by norm_num)
  constructor
  · refine ⟨?_, by norm_num⟩
    rw [sweep_frequency_ok rfl]
    rw [sweepLoop_done (by norm_num) (by norm_num)]
  · refine ⟨?_, hok9, hok8, hok7, by simp [mkRow], ?_⟩
    · rw [sweep_frequency_ok (s := ⟨9, 1, 0, 1, 0⟩) (by norm_num)]
      rw [sweepLoop_accept (s := ⟨9, 1, 0, 1, 0⟩) (by norm_num) (by norm_num)
        (by norm_num) hok9]
      rw [sweepLoop_accept (s := ⟨8, 1, 0, 1, 0⟩) (by norm_num) (by norm_num)
        (by norm_num) hok8]
      rw [sweepLoop_accept (s := ⟨7, 1, 0, 1, 0⟩) (by norm_num) (by norm_num)
        (by norm_num) hok7]
      rw [sweepLoop_done (by norm_num) (by norm_num)]
      norm_num [mkRow]
    · intro hsorted
      rw [List.sorted_cons] at hsorted
      have h98 := hsorted.1 8 (by simp)
      norm_num at h98

/-- Claim C1 witness: a concrete fault-free ascending sweep (1 Hz to 3 Hz in
3 steps with an ideal instrument) hits the amended claim's conclusion. -/
theorem claim_C1_witness :
    ∃ rows : List DataRow,
      sweep_frequency (fun f => .ok (⟨f, 1, f, 1, 0⟩ : MeasurementSample))
          (fun _ _ => (7:ℚ)) 1 3 3 5 = some (.completed rows) ∧
      rows.length = 3 ∧
      List.Sorted (· ≤ ·) (rows.map DataRow.freq1) ∧
      ∀ r ∈ rows, r.gain = (fun _ _ => (7:ℚ)) r.ampl1 r.ampl2 := by
  exact claim_C1 (fun f => ⟨f, 1, f, 1, 0⟩) (fun _ _ => 7) 1 3 3
    (by norm_num) (by norm_num)
    (by
      intro f h1 h2
      simp only [ErroneousSample]
      push_neg
      refine ⟨by linarith, ?_, by norm_num⟩
      have h3 : (3:ℚ) ≤ 10^10 := by norm_num
      linarith)
    (fun f _ _ => rfl)
/-- Claim C2 (amended): a sample is classified erroneous exactly when
`output_freq_hz > 1.5·input_freq_hz`, or `input_freq_hz > 10^10`, or
`input_ampl_vpp > 10^10`; an erroneous sample is not appended, the
cumulative `error_cnt` is incremented, and `curr_freq` advances by exactly
2 Hz instead of the full step; a sample with `output_freq_hz =
2·input_freq_hz` **and positive `input_freq_hz`** is classified erroneous;
and no outcome's dataset ever contains a row whose sample is erroneous. -/
theorem claim_C2 (s : MeasurementSample)
    (meas : ℚ → Except TransportError MeasurementSample)
    (gainFn : ℚ → ℚ → ℚ) (endF step curr : ℚ) (errCnt fuel : ℕ)
    (rows : List DataRow) :
    (ErroneousSample s ↔ (3/2 * s.freq1 < s.freq2 ∨ (10:ℚ)^10 < s.freq1 ∨
      (10:ℚ)^10 < s.ampl1)) ∧
    (fuel ≠ 0 → curr ≤ endF → meas curr = .ok s → ErroneousSample s →
      errCnt + 1 ≤ 4 →
      sweepLoop meas gainFn endF step fuel curr errCnt rows =
        sweepLoop meas gainFn endF step (fuel - 1) (curr + 2) (errCnt + 1)
          rows) ∧
    (0 < s.freq1 → s.freq2 = 2 * s.freq1 → ErroneousSample s) ∧
    (∀ res : SweepOutcome,
      sweepLoop meas gainFn endF step fuel curr errCnt [] = some res →
      ∀ r ∈ res.rows, ¬ ErroneousSample (rowSample r)) := by
  refine ⟨Iff.rfl, ?_, ?_, ?_⟩
  · intro hf hle hm hs hc
    exact sweepLoop_retry hf hle hm hs hc
  · intro hpos heq
    left
    rw [heq]
    linarith
  · intro res hrun
    exact sweepLoop_rows_valid meas gainFn endF step fuel curr errCnt []
      res (by simp) hrun

/-- Claim C2 counterexample: the sample `(freq1 = 0, ampl1 = 1, freq2 = 0,
ampl2 = 1, phase = 0)` has `output_freq_hz = 2·input_freq_hz` (both are 0)
yet is **not** classified erroneous (`0 > 1.5·0` is false), and a sweep
over it records it into the dataset — refuting the claim's unconditional
"any sample with `output_freq_hz = 2·input_freq_hz` is erroneous and never
appears in the dataset". -/
theorem claim_C2_counterexample :
    (⟨0, 1, 0, 1, 0⟩ : MeasurementSample).freq2 =
      2 * (⟨0, 1, 0, 1, 0⟩ : MeasurementSample).freq1 ∧
    ¬ ErroneousSample ⟨0, 1, 0, 1, 0⟩ ∧
    sweep_frequency (fun _ => .ok ⟨0, 1, 0, 1, 0⟩) (fun _ _ => 0) 0 1 2 5 =
      some (.completed [mkRow ⟨0, 1, 0, 1, 0⟩ 0, mkRow ⟨0, 1, 0, 1, 0⟩ 0]) := by
  have hok : ¬ ErroneousSample ⟨0, 1, 0, 1, 0⟩ := by
    simp only [ErroneousSample]
    push_neg
    norm_num
  refine ⟨by norm_num, hok, ?_⟩
  rw [sweep_frequency_ok rfl]
  rw [sweepLoop_accept (s := ⟨0, 1, 0, 1, 0⟩) (by norm_num) (by norm_num)
    rfl hok]
  rw [sweepLoop_accept (s := ⟨0, 1, 0, 1, 0⟩) (by norm_num) (by norm_num)
    rfl hok]
  rw [sweepLoop_done (by norm_num) (by norm_num)]
  norm_num [mkRow]

/-- Claim C2 witness: a sample with `freq2 = 2·freq1` and `freq1 = 1 > 0`
is classified erroneous. -/
theorem claim_C2_witness : ErroneousSample ⟨1, 1, 2, 1, 0⟩ :=
  (claim_C2 ⟨1, 1, 2, 1, 0⟩ (fun _ => .ok ⟨1, 1, 2, 1, 0⟩) (fun _ _ => 0)
    0 0 0 0 0 []).2.2.1 (by norm_num) (by norm_num)

/-- Claim C3 (amended): when the cumulative `error_cnt` is already 4 and a
fifth erroneous sample arrives (counted across the whole sweep, not per
step), the sweep aborts early; the partial dataset accepted before the
abort is kept; but the suggested retry range is the **constant 100 Hz**
(hard-coded in the source, not `start_freq_hz`) up to
`curr_freq + 2 − frequency_step` (the nudged failing frequency minus one
step, not the last accepted frequency). -/
theorem claim_C3 (meas : ℚ → Except TransportError MeasurementSample)
    (gainFn : ℚ → ℚ → ℚ) (endF step curr : ℚ) (fuel : ℕ)
    (rows : List DataRow) (s : MeasurementSample) (hf : fuel ≠ 0)
    (hle : curr ≤ endF) (hm : meas curr = .ok s) (hs : ErroneousSample s) :
    sweepLoop meas gainFn endF step fuel curr 4 rows =
      some (.aborted rows 100 (curr + 2 - step)) :=
  sweepLoop_abort hf hle hm hs (by omega)

/-- Claim C3 counterexample: a sweep from 200 Hz to 400 Hz in 3 steps that
accepts one row at 200 Hz and then sees five erroneous samples aborts with
the suggested range 100 Hz – 210 Hz; neither bound equals `start_freq_hz =
200` or the last accepted frequency `200`, refuting the claimed
`start_freq_hz .. last good frequency` range. -/
theorem claim_C3_counterexample :
    sweep_frequency
        (fun f => .ok (if f = 200 then ⟨200, 1, 200, 1, 0⟩
          else ⟨1, 1, 2, 1, 0⟩))
        (fun _ _ => 0) 200 400 3 20 =
      some (.aborted [mkRow ⟨200, 1, 200, 1, 0⟩ 0] 100 210) ∧
    (100 : ℚ) ≠ 200 ∧ (210 : ℚ) ≠ 200 := by
  have hbad : ErroneousSample ⟨1, 1, 2, 1, 0⟩ := by
    simp only [ErroneousSample]
    norm_num
  refine ⟨?_, by norm_num, by norm_num⟩
  rw [sweep_frequency_ok rfl]
  rw [sweepLoop_accept (s := ⟨200, 1, 200, 1, 0⟩) (by norm_num) (by norm_num)
    (by norm_num) (by simp only [ErroneousSample]; push_neg; norm_num)]
  rw [sweepLoop_retry (s := ⟨1, 1, 2, 1, 0⟩) (by norm_num) (by norm_num)
    (by norm_num) hbad (by norm_num)]
  rw [sweepLoop_retry (s := ⟨1, 1, 2, 1, 0⟩) (by norm_num) (by norm_num)
    (by norm_num) hbad (by norm_num)]
  rw [sweepLoop_retry (s := ⟨1, 1, 2, 1, 0⟩) (by norm_num) (by norm_num)
    (by norm_num) hbad (by norm_num)]
  rw [sweepLoop_retry (s := ⟨1, 1, 2, 1, 0⟩) (by norm_num) (by norm_num)
    (by norm_num) hbad (by norm_num)]
  rw [sweepLoop_abort (s := ⟨1, 1, 2, 1, 0⟩) (by norm_num) (by norm_num)
    (by norm_num) hbad (by norm_num)]
  norm_num [mkRow]

/-- Claim C3 witness: a fifth cumulative erroneous sample at 5 Hz (stop
10 Hz, step 3 Hz) aborts with the partial dataset kept and suggested range
100 Hz – 4 Hz. -/
theorem claim_C3_witness :
    sweepLoop (fun _ => .ok ⟨1, 1, 2, 1, 0⟩) (fun _ _ => 0) 10 3 1 5 4
        [mkRow ⟨5, 1, 5, 1, 0⟩ 0] =
      some (.aborted [mkRow ⟨5, 1, 5, 1, 0⟩ 0] 100 4) := by
  have h := claim_C3 (fun _ => .ok ⟨1, 1, 2, 1, 0⟩) (fun _ _ => 0) 10 3 5 1
    [mkRow ⟨5, 1, 5, 1, 0⟩ 0] ⟨1, 1, 2, 1, 0⟩ (by norm_num) (by norm_num)
    rfl (by simp only [ErroneousSample]; norm_num)
  norm_num at h
  exact h

/-- Claim C5 (code bug): the validity guard does **not** enforce
`input_ampl_vpp > 0`: the sample `(100, 0, 100, 1, 0)` with zero input
amplitude passes classification and is recorded, so the source reaches
`20*math.log10(ampl2/ampl1)` with `ampl1 = 0` (a `ZeroDivisionError` at
run time), instead of treating the sample as erroneous. -/
theorem claim_C5 :
    ¬ ErroneousSample ⟨100, 0, 100, 1, 0⟩ ∧
    (⟨100, 0, 100, 1, 0⟩ : MeasurementSample).ampl1 ≤ 0 ∧
    sweep_frequency (fun _ => .ok ⟨100, 0, 100, 1, 0⟩) (fun _ _ => 0)
        0 1 2 5 =
      some (.completed [mkRow ⟨100, 0, 100, 1, 0⟩ 0,
        mkRow ⟨100, 0, 100, 1, 0⟩ 0]) := by
  have hok : ¬ ErroneousSample ⟨100, 0, 100, 1, 0⟩ := by
    simp only [ErroneousSample]
    push_neg
    norm_num
  refine ⟨hok, by norm_num, ?_⟩
  rw [sweep_frequency_ok rfl]
  rw [sweepLoop_accept (s := ⟨100, 0, 100, 1, 0⟩) (by norm_num) (by norm_num)
    rfl hok]
  rw [sweepLoop_accept (s := ⟨100, 0, 100, 1, 0⟩) (by norm_num) (by norm_num)
    rfl hok]
  rw [sweepLoop_done (by norm_num) (by norm_num)]
  norm_num [mkRow]
/-- Claim C4: on a dataset with at least two rows the cutoff analysis uses
the maximum gain as `reference_gain_db`, picks `cutoff_index` as the index
minimising `|gain_db[i] − (reference − 3)|` with the first occurrence
winning ties, and reads `cutoff_gain_db`/`cutoff_phase_deg` at that index;
in particular the gain sequence `[0, -1, -3, -6, -9]` gives index 2. -/
theorem claim_C4 (gains phases : List ℚ) (h2 : 2 ≤ gains.length) :
    (maxQ gains ∈ gains ∧ ∀ g ∈ gains, g ≤ maxQ gains) ∧
    cutoffIndex gains < gains.length ∧
    (∀ j, j < gains.length →
      |gains.getD (cutoffIndex gains) 0 - (maxQ gains - 3)| ≤
        |gains.getD j 0 - (maxQ gains - 3)|) ∧
    (∀ j, j < cutoffIndex gains →
      |gains.getD (cutoffIndex gains) 0 - (maxQ gains - 3)| <
        |gains.getD j 0 - (maxQ gains - 3)|) ∧
    analyzeArrays gains phases = ⟨cutoffIndex gains,
      gains.getD (cutoffIndex gains) 0, phases.getD (cutoffIndex gains) 0,
      maxQ gains⟩ ∧
    cutoffIndex [0, -1, -3, -6, -9] = 2 := by
  have hne : gains ≠ [] := by
    intro h
    rw [h] at h2
    simp at h2
  obtain ⟨ha, hb, hc⟩ := cutoffIndex_spec gains hne
  refine ⟨maxQ_spec gains hne, ha, hb, hc, rfl, ?_⟩
  norm_num [cutoffIndex, maxQ, pyMin, pyMinFold, listIndex, List.foldl,
    abs_eq_max_neg, max_def]

/-- Claim C4 witness: the five-point example dataset hits the claim. -/
theorem claim_C4_witness : cutoffIndex [0, -1, -3, -6, -9] = 2 :=
  (claim_C4 [0, -1, -3, -6, -9] [] (by norm_num)).2.2.2.2.2

/-- Claim C6 (code bug): the cutoff analysis performs no minimum-size
check: on a persisted dataset with exactly one row it silently returns the
only entry (`cutoff_index = 0`) instead of reporting an `AnalysisError` (no
such error exists in the source); on an empty dataset it fails with an
out-of-range access (`freq_arr[0]`, line 85 of `interactivePlot.py`),
modelled as `none` — also not an explicit reported error. -/
theorem claim_C6 :
    plot_bode (writeDataset [⟨100, 1, 100, 1, 30, -5⟩]) =
      some ⟨0, -5, 30, -5⟩ ∧
    plot_bode (writeDataset []) = none := by
  constructor
  · rw [plot_bode_writeDataset]
    norm_num [analyzeArrays, cutoffIndex, maxQ, pyMin, pyMinFold, listIndex]
  · rw [plot_bode_writeDataset]
    simp

/-- Claim C7: a non-`+0,` (non-zero code) instrument response makes
`check_instrument_errors` fail at once, carrying the response and the
offending command; a transport error inside the sweep loop ends the run
immediately (never absorbed or retried) with the error propagated; while a
data-quality classification failure is absorbed by the loop itself — the
run continues with only the counter and frequency nudged, and no error is
surfaced for that step. -/
theorem claim_C7 (c r : List Char)
    (meas : ℚ → Except TransportError MeasurementSample)
    (gainFn : ℚ → ℚ → ℚ) (endF step curr : ℚ) (errCnt fuel : ℕ)
    (rows : List DataRow) (e : TransportError) (s : MeasurementSample) :
    (r ≠ [] → startsPlusZero r = false →
      check_instrument_errors c r = .error ⟨r, c⟩) ∧
    (fuel ≠ 0 → curr ≤ endF → meas curr = .error e →
      sweepLoop meas gainFn endF step fuel curr errCnt rows =
        some (.transportFail rows e)) ∧
    (fuel ≠ 0 → curr ≤ endF → meas curr = .ok s → ErroneousSample s →
      errCnt + 1 ≤ 4 →
      sweepLoop meas gainFn endF step fuel curr errCnt rows =
        sweepLoop meas gainFn endF step (fuel - 1) (curr + 2) (errCnt + 1)
          rows) := by
  refine ⟨?_, ?_, ?_⟩
  · intro h1 h2
    rw [check_instrument_errors, if_neg h1]
    simp [h2]
  · intro hf hle hm
    exact sweepLoop_transport hf hle hm
  · intro hf hle hm hs hc
    exact sweepLoop_retry hf hle hm hs hc

/-- Claim C7 witness: the response `E` (not starting with `+0,`) to command
`C` yields the propagated error. -/
theorem claim_C7_witness :
    check_instrument_errors ['C'] ['E'] = .error ⟨['E'], ['C']⟩ :=
  (claim_C7 ['C'] ['E'] (fun _ => .error ⟨[], []⟩) (fun _ _ => 0) 0 0 0 0 0
    [] ⟨[], []⟩ ⟨0, 0, 0, 0, 0⟩).1 (by simp) (by decide)

/-- Claim C9: the validity guard never checks `output_ampl_vpp`; a sample
within the three checked bounds is classified valid and appended to the
dataset regardless of `output_ampl_vpp` (the asymmetry of line 314 of the
source is preserved). -/
theorem claim_C9 (s : MeasurementSample)
    (meas : ℚ → Except TransportError MeasurementSample)
    (gainFn : ℚ → ℚ → ℚ) (endF step curr : ℚ) (errCnt fuel : ℕ)
    (rows : List DataRow) (h1 : s.freq2 ≤ 3/2 * s.freq1)
    (h2 : s.freq1 ≤ (10:ℚ)^10) (h3 : s.ampl1 ≤ (10:ℚ)^10) :
    ¬ ErroneousSample s ∧
    (fuel ≠ 0 → curr ≤ endF → meas curr = .ok s →
      sweepLoop meas gainFn endF step fuel curr errCnt rows =
        sweepLoop meas gainFn endF step (fuel - 1) (curr + step) errCnt
          (rows ++ [mkRow s (gainFn s.ampl1 s.ampl2)])) := by
  have hok : ¬ ErroneousSample s := by
    simp only [ErroneousSample]
    push_neg
    exact ⟨h1, h2, h3⟩
  refine ⟨hok, ?_⟩
  intro hf hle hm
  exact sweepLoop_accept hf hle hm hok

/-- Claim C9 witness: a sample whose `output_ampl_vpp` exceeds `10^10` is
still classified valid when the three checked fields are in bounds. -/
theorem claim_C9_witness :
    (10:ℚ)^10 < ((⟨1, 1, 1, (10:ℚ)^10 + 1, 0⟩ : MeasurementSample)).ampl2 ∧
    ¬ ErroneousSample ⟨1, 1, 1, (10:ℚ)^10 + 1, 0⟩ :=
  ⟨by norm_num,
    (claim_C9 ⟨1, 1, 1, (10:ℚ)^10 + 1, 0⟩
      (fun _ => .ok ⟨1, 1, 1, (10:ℚ)^10 + 1, 0⟩) (fun _ _ => 0) 0 0 0 0 0 []
      (by norm_num) (by norm_num) (by norm_num)).1⟩

/-- Claim C10: an erroneous sample whose 2 Hz nudge pushes `curr_freq` past
`stop_freq_hz` while the cumulative error count stays at most 4 makes the
loop exit normally — the run is `completed` with the rows collected so far
and no abort or error, possibly with fewer than `step_count` rows; a
concrete 3-step sweep that turns erroneous at its last visited frequency
completes with only 2 rows. -/
theorem claim_C10 (meas : ℚ → Except TransportError MeasurementSample)
    (gainFn : ℚ → ℚ → ℚ) (endF step curr : ℚ) (errCnt fuel : ℕ)
    (rows : List DataRow) (s : MeasurementSample) :
    (2 ≤ fuel → curr ≤ endF → meas curr = .ok s → ErroneousSample s →
      errCnt + 1 ≤ 4 → endF < curr + 2 →
      sweepLoop meas gainFn endF step fuel curr errCnt rows =
        some (.completed rows)) ∧
    sweep_frequency
        (fun f => .ok (if f < 10 then ⟨f, 1, f, 1, 0⟩ else ⟨1, 1, 2, 1, 0⟩))
        (fun _ _ => 0) 0 10 3 9 =
      some (.completed [mkRow ⟨0, 1, 0, 1, 0⟩ 0, mkRow ⟨5, 1, 5, 1, 0⟩ 0]) ∧
    (2 : ℕ) < 3 := by
  refine ⟨?_, ?_, by norm_num⟩
  · intro hf hle hm hs hc hpast
    rw [sweepLoop_retry (by omega) hle hm hs hc]
    exact sweepLoop_done (by omega) (not_le.mpr hpast)
  · have hbad : ErroneousSample ⟨1, 1, 2, 1, 0⟩ := by
      simp only [ErroneousSample]
      norm_num
    rw [sweep_frequency_ok (s := ⟨0, 1, 0, 1, 0⟩) (by norm_num)]
    rw [sweepLoop_accept (s := ⟨0, 1, 0, 1, 0⟩) (by norm_num) (by norm_num)
      (by norm_num) (by simp only [ErroneousSample]; push_neg; norm_num)]
    rw [sweepLoop_accept (s := ⟨5, 1, 5, 1, 0⟩) (by norm_num) (by norm_num)
      (by norm_num) (by simp only [ErroneousSample]; push_neg; norm_num)]
    rw [sweepLoop_retry (s := ⟨1, 1, 2, 1, 0⟩) (by norm_num) (by norm_num)
      (by norm_num) hbad (by norm_num)]
    rw [sweepLoop_done (by norm_num) (by norm_num)]
    norm_num [mkRow]

/-- Claim C10 witness: an erroneous sample at 2 Hz with stop 3 Hz and error
count 0 ends the sweep normally, keeping the one row collected before. -/
theorem claim_C10_witness :
    sweepLoop (fun _ => .ok ⟨1, 1, 2, 1, 0⟩) (fun _ _ => 0) 3 5 2 2 0
        [mkRow ⟨9, 9, 9, 9, 9⟩ 3] =
      some (.completed [mkRow ⟨9, 9, 9, 9, 9⟩ 3]) :=
  (claim_C10 (fun _ => .ok ⟨1, 1, 2, 1, 0⟩) (fun _ _ => 0) 3 5 2 0 2
    [mkRow ⟨9, 9, 9, 9, 9⟩ 3] ⟨1, 1, 2, 1, 0⟩).1 (by norm_num) (by norm_num)
    rfl (by simp only [ErroneousSample]; norm_num) (by norm_num) (by norm_num)

/-- Claim C8: the persisted dataset round-trips — the store writes one
header line plus one six-column comma-and-space line per row, reading
skips the header (a malformed line) and recovers exactly the written
`input_freq_hz`, `phase_diff_deg`, `gain_db` sequences in order — and
re-running the cutoff analysis on the persisted-then-reloaded dataset
yields the same `CutoffResult` as analysing the original arrays. -/
theorem claim_C8 (rows : List DataRow) :
    readDataset (writeDataset rows) =
      rows.map (fun r => (r.freq1, r.phase_diff, r.gain)) ∧
    (rows ≠ [] →
      plot_bode (writeDataset rows) =
        some (analyzeArrays (rows.map DataRow.gain)
          (rows.map DataRow.phase_diff))) := by
  refine ⟨readDataset_writeDataset rows, ?_⟩
  intro hne
  rw [plot_bode_writeDataset]
  simp [List.isEmpty_iff, hne]

/-- Claim C8 witness: a one-row dataset round-trips and re-analyses
identically. -/
theorem claim_C8_witness :
    readDataset (writeDataset [⟨1, 2, 3, 4, 5, 6⟩]) = [(1, 5, 6)] ∧
    plot_bode (writeDataset [⟨1, 2, 3, 4, 5, 6⟩]) =
      some (analyzeArrays [6] [5]) := by
  have h := claim_C8 [⟨1, 2, 3, 4, 5, 6⟩]
  refine ⟨?_, ?_⟩
  · have h1 := h.1
    simpa using h1
  · have h2 := h.2 (by simp)
    simpa using h2
